import Mathlib

/-!
Shallow embedding of the Ewald summation core `exafmm::Ewald2`
(src/uniform/ewald2.h) and proofs of the specification claims.

Machine reals (`real_t`) are modelled by `ℝ`; the integer-valued wave
lattice is modelled by `ℤ`.  3-vectors and the 4-component target
accumulator (potential + 3 force axes) are index functions.
-/

namespace Ewald2

/-- A 3-vector of reals (`vec3` in the source), with pointwise arithmetic. -/
abbrev vec3 : Type := Fin 3 → ℝ

/-- A 4-vector of reals (`vec4` in the source): component 0 is the
potential (or the position's x for `Jbodies`), components 1..3 the force
axes (or position y, z and charge for `Jbodies`). -/
abbrev vec4 : Type := Fin 4 → ℝ

/-- Modelled from the spec: the `norm` helper of the vector header (not
under src/) returns the squared magnitude `|v|² = Σ_d v[d]²`, as in the
spec's `R² = |dX|²` and `K² = |K|²`. -/
def norm3 (v : vec3) : ℝ := v 0 * v 0 + v 1 * v 1 + v 2 * v 2

/-- The C library constant `M_2_SQRTPI` = 2/√π. -/
noncomputable def M_2_SQRTPI : ℝ := 2 / Real.sqrt Real.pi

/-- Modelled from the spec: the C library complementary error function
`erfc(x) = 1 - erf(x)` (spec glossary), written in its standard
tail-integral form `erfc(x) = (2/√π) ∫_x^∞ exp(-t²) dt`. -/
noncomputable def erfc (x : ℝ) : ℝ :=
  (2 / Real.sqrt Real.pi) * ∫ t in Set.Ioi x, Real.exp (-(t ^ 2))

/-- A particle (`Body` in types.h, which is not under src/; fields are
modelled from the spec's data model §3: position, scalar source
strength, 4-component target accumulator, and bookkeeping consisting of
a stable index, an owning-cell id and a weight). -/
structure Body where
  X : vec3
  SRC : ℝ
  TRG : vec4
  IBODY : ℤ
  ICELL : ℤ
  WEIGHT : ℝ

/-- The increment `Ewald2::P2P` adds to the target accumulator of a
particle at `Xi` for a source particle at `Xj` with charge `qj` and
periodic offset `Xp` (src/uniform/ewald2.h lines 92-105, one iteration
of the double loop). -/
noncomputable def p2pInc (alpha cutoff : ℝ) (Xi Xj : vec3) (qj : ℝ) (Xp : vec3) : vec4 :=
  let dX : vec3 := fun d => Xi d - Xj d - Xp d
  let R2 := norm3 dX
  if 0 < R2 ∧ R2 < cutoff * cutoff then
    let R2s := R2 * alpha * alpha
    let Rs := Real.sqrt R2s
    let invRs := 1 / Rs
    let invR2s := invRs * invRs
    let invR3s := invR2s * invRs
    let dtmp := qj * (M_2_SQRTPI * Real.exp (-R2s) * invR2s + erfc Rs * invR3s)
      * (alpha * alpha * alpha)
    fun k => Fin.cases (motive := fun _ => ℝ)
      (qj * erfc Rs * invRs * alpha) (fun d => -(dX d * dtmp)) k
  else 0

/-- `Ewald2::P2P` on the particle ranges of a target and a source leaf
cell: each target particle's accumulator gains the per-pair increment
for every source particle (src/uniform/ewald2.h lines 89-109). -/
noncomputable def P2P (alpha cutoff : ℝ) (tgt src : List Body) (Xp : vec3) : List Body :=
  tgt.map (fun Bi =>
    src.foldl (fun B Bj =>
      { B with TRG := B.TRG + p2pInc alpha cutoff B.X Bj.X Bj.SRC Xp }) Bi)

/-- The potential the P2P kernel accumulates per unit source charge: a
function of the squared separation alone (and the configuration). -/
noncomputable def realPotCoef (alpha cutoff R2 : ℝ) : ℝ :=
  if 0 < R2 ∧ R2 < cutoff * cutoff then
    erfc (Real.sqrt (R2 * alpha * alpha)) * (1 / Real.sqrt (R2 * alpha * alpha)) * alpha
  else 0

/-- `Ewald2::selfTerm`: subtract `M_2_SQRTPI · SRC · alpha` from each
particle's potential (src/uniform/ewald2.h lines 153-157). -/
noncomputable def selfTerm (alpha : ℝ) (bodies : List Body) : List Body :=
  bodies.map (fun B =>
    { B with
      TRG := fun k => @Fin.cases 3 (fun _ => ℝ)
        (B.TRG 0 - M_2_SQRTPI * B.SRC * alpha) (fun d => B.TRG d.succ) k })

/-- `Ewald2::getDipole`: accumulate `(X - X0) * SRC` over all bodies
(src/uniform/ewald2.h lines 180-186; `std::real(complex_t(SRC)) = SRC`). -/
noncomputable def getDipole (bodies : List Body) (X0 : vec3) : vec3 :=
  bodies.foldl (fun dipole B => dipole + fun d => (B.X d - X0 d) * B.SRC) 0

/-- `Ewald2::dipoleCorrection` (src/uniform/ewald2.h lines 189-197). -/
noncomputable def dipoleCorrection (bodies : List Body) (dipole : vec3)
    (numBodies : ℤ) (cyc : vec3) : List Body :=
  let coef := 4 * Real.pi / (3 * cyc 0 * cyc 1 * cyc 2)
  bodies.map (fun B =>
    { B with
      TRG := fun k => @Fin.cases 3 (fun _ => ℝ)
        (B.TRG 0 - coef * norm3 dipole / (numBodies : ℝ) / B.SRC)
        (fun d => B.TRG d.succ - coef * dipole d) k })

/-- The denominators of the divisions `Ewald2::dipoleCorrection`
performs: the `3·cycle_x·cycle_y·cycle_z` of `coef`, then, per body, the
body count and the body's own source strength (src/uniform/ewald2.h
lines 190 and 192). -/
def dipoleCorrectionDenominators (bodies : List Body) (numBodies : ℤ) (cyc : vec3) :
    List ℝ :=
  (3 * cyc 0 * cyc 1 * cyc 2) :: bodies.flatMap (fun B => [(numBodies : ℝ), B.SRC])

/-- A wave (`Ewald2::Wave`): the integer lattice point `K` (stored in a
`vec3` in the source but always holding exact integers `l, m, n`) and
the real and imaginary amplitude. -/
structure Wave where
  K : Fin 3 → ℤ
  REAL : ℝ
  IMAG : ℝ

/-- The integers `lo, lo+1, ..., hi` (a C loop `for (x=lo; x<=hi; x++)`). -/
def intRange (lo hi : ℤ) : List ℤ :=
  (List.range (hi - lo + 1).toNat).map (fun i : ℕ => lo + (i : ℤ))

/-- `Ewald2::initWaves` (src/uniform/ewald2.h lines 62-86): triple loop
over `l ∈ 0..kmax`, `m ∈ mmin..kmax`, `n ∈ nmin..kmax` with
`mmin = 0` when `l = 0` (else `-kmax`), `nmin = 1` when `l = m = 0`
(else `-kmax`), keeping `(l,m,n)` when `l²+m²+n² ≤ ksize²`, with zero
amplitudes. -/
def initWaves (ksize : ℕ) : List Wave :=
  let kmaxsq : ℤ := (ksize : ℤ) * (ksize : ℤ)
  let kmax : ℤ := (ksize : ℤ)
  (intRange 0 kmax).flatMap (fun l =>
    let mmin : ℤ := if l = 0 then 0 else -kmax
    (intRange mmin kmax).flatMap (fun m =>
      let nmin : ℤ := if l = 0 ∧ m = 0 then 1 else -kmax
      (intRange nmin kmax).filterMap (fun n =>
        if l * l + m * m + n * n ≤ kmaxsq then
          some ⟨![l, m, n], 0, 0⟩
        else none)))

/-- Modelled from the spec: the "full symmetric shell" of §8 — all
integer vectors with `0 < l²+m²+n² ≤ ksize²`, no half-lattice
restriction. -/
def fullShell (ksize : ℕ) : List (Fin 3 → ℤ) :=
  let kmax : ℤ := (ksize : ℤ)
  (intRange (-kmax) kmax).flatMap (fun l =>
    (intRange (-kmax) kmax).flatMap (fun m =>
      (intRange (-kmax) kmax).filterMap (fun n =>
        if 0 < l * l + m * m + n * n ∧ l * l + m * m + n * n ≤ kmax * kmax then
          some ![l, m, n]
        else none)))

/-- The per-axis scale conversion `scale[d] = 2π/cycle[d]` computed at
the top of `dft`, `idft` and `wavePart`. -/
noncomputable def scaleVec (cyc : vec3) : vec3 := fun d => 2 * Real.pi / cyc d

/-- The phase `th = Σ_d K[d] · x[d] · scale[d]` of `dft`/`idft`
(src/uniform/ewald2.h lines 34-35 and 50-51); the particle entry `b`
stores the position in components 0..2. -/
noncomputable def phase (scale : vec3) (K : Fin 3 → ℤ) (b : vec4) : ℝ :=
  ∑ d : Fin 3, (K d : ℝ) * b d.castSucc * scale d

/-- The reciprocal filter loop of `Ewald2::wavePart`
(src/uniform/ewald2.h lines 164-174): each wave's amplitude is scaled in
place by `factor = coef · exp(-K²·coef2) / K²` with
`coef = 2/sigma/cycle[0]/cycle[1]/cycle[2]`, `coef2 = 1/(4·alpha²)` and
`K` the wave vector scaled per axis. -/
noncomputable def waveFilter (alpha sigma : ℝ) (cyc : vec3) (waves : List Wave) : List Wave :=
  let scale := scaleVec cyc
  let coef := 2 / sigma / cyc 0 / cyc 1 / cyc 2
  let coef2 := 1 / (4 * alpha * alpha)
  waves.map (fun W =>
    let K : vec3 := fun d => (W.K d : ℝ) * scale d
    let K2 := norm3 K
    let factor := coef * Real.exp (-K2 * coef2) / K2
    { W with
      REAL := W.REAL * factor,
      IMAG := W.IMAG * factor })

/-- `Ewald2::dft` (src/uniform/ewald2.h lines 26-40): each wave's
amplitude is reset and then accumulates `q·cos(th)` / `q·sin(th)` over
all particles (`q` is component 3 of the particle entry). -/
noncomputable def dft (cyc : vec3) (waves : List Wave) (J : List vec4) : List Wave :=
  let scale := scaleVec cyc
  waves.map (fun W =>
    J.foldl (fun Wa b =>
      { Wa with
        REAL := Wa.REAL + b 3 * Real.cos (phase scale Wa.K b),
        IMAG := Wa.IMAG + b 3 * Real.sin (phase scale Wa.K b) })
      { W with
        REAL := 0,
        IMAG := 0 })

/-- `Ewald2::idft` (src/uniform/ewald2.h lines 43-59): per particle, a
fresh accumulator gathers potential and force over all waves, the force
components are then scaled by `scale[d]`, and the result is added onto
the particle's existing accumulator. -/
noncomputable def idft (cyc : vec3) (waves : List Wave) (I J : List vec4) : List vec4 :=
  let scale := scaleVec cyc
  List.zipWith (fun ib jb =>
    let TRG : vec4 := waves.foldl (fun t W =>
      let th := phase scale W.K jb
      let dtmp := W.REAL * Real.sin th - W.IMAG * Real.cos th
      fun k => @Fin.cases 3 (fun _ => ℝ)
        (t 0 + (W.REAL * Real.cos th + W.IMAG * Real.sin th))
        (fun d => t d.succ - dtmp * (W.K d : ℝ)) k) 0
    ib + (fun k => @Fin.cases 3 (fun _ => ℝ)
      (TRG 0) (fun d => TRG d.succ * scale d) k)) I J

/-- `Ewald2::wavePart` (src/uniform/ewald2.h lines 160-177): forward
transform of the source particles, reciprocal filter, inverse transform
onto the target accumulators. -/
noncomputable def wavePart (ksize : ℕ) (alpha sigma : ℝ) (cyc : vec3)
    (I J : List vec4) : List vec4 :=
  idft cyc (waveFilter alpha sigma cyc (dft cyc (initWaves ksize) J)) I J

/-- Modelled from the spec: the `wrap` helper of types.h (not under
src/) — "compute the minimum-image separation vector between cell
centers under periodic wrap (subtract the nearest integer multiple of
`cycle` per axis so the wrapped distance is the shortest possible)". -/
noncomputable def wrap (X cyc : vec3) : vec3 :=
  fun d => X d - cyc d * ((round (X d / cyc d) : ℤ) : ℝ)

/-- A tree cell: bounding-sphere center and radius, owned particle
range, child cells.  A cell with no children is a leaf (the source's
`NCHILD == 0`; `ICHILD`/`NCHILD` index arithmetic becomes the child
list). -/
inductive Cell where
  | mk (X : vec3) (R : ℝ) (BODY : List Body) (CHILD : List Cell)

def Cell.X : Cell → vec3
  | .mk X _ _ _ => X

def Cell.R : Cell → ℝ
  | .mk _ R _ _ => R

def Cell.BODY : Cell → List Body
  | .mk _ _ b _ => b

def Cell.CHILD : Cell → List Cell
  | .mk _ _ _ c => c

noncomputable instance : DecidableEq (List Cell) := fun _ _ => Classical.dec _

/-- The trace of P2P evaluations `Ewald2::Neighbor::operator()` makes
for a fixed leaf target cell `Ci` while traversing a source cell
(src/uniform/ewald2.h lines 119-131): each entry is the source leaf cell
paired with the periodic offset `Xperiodic` used for it. -/
noncomputable def neighborCalls (cutoff : ℝ) (cyc : vec3) (Ci : Cell) :
    Cell → List (Cell × vec3)
  | Cell.mk X R bodies children =>
    let dX := wrap (fun d => Ci.X d - X d) cyc
    let Xp : vec3 := fun d => Ci.X d - X d - dX d
    if Real.sqrt (norm3 dX) - Ci.R - R < Real.sqrt 3 * cutoff then
      (if children = [] then [(Cell.mk X R bodies children, Xp)] else []) ++
      (children.attach.map (fun c => neighborCalls cutoff cyc Ci c.1)).flatten
    else []
  termination_by c => sizeOf c
  decreasing_by
    simp only [Cell.mk.sizeOf_spec]
    have := List.sizeOf_lt_of_mem c.2
    omega

/-- The trace of traversals `Ewald2::realPart` starts
(src/uniform/ewald2.h lines 140-150): one `Neighbor` run per leaf target
cell against the source root, none for internal target cells. -/
noncomputable def realPartCalls (cutoff : ℝ) (cyc : vec3) (cells : List Cell)
    (root : Cell) : List (Cell × Cell × vec3) :=
  cells.foldl (fun acc Ci =>
    if Ci.CHILD = [] then
      acc ++ (neighborCalls cutoff cyc Ci root).map (fun p => (Ci, p))
    else acc) []

theorem exp_neg_sq_integrableOn (x : ℝ) :
    MeasureTheory.IntegrableOn (fun t : ℝ => Real.exp (-(t ^ 2))) (Set.Ioi x) := by
  have h : (fun t : ℝ => Real.exp (-(t ^ 2))) = fun t : ℝ => Real.exp (-1 * t ^ 2) := by
    funext t
    norm_num
  rw [h]
  exact (integrable_exp_neg_mul_sq one_pos).integrableOn

theorem exp_neg_sq_integral_pos (x : ℝ) :
    0 < ∫ t in Set.Ioi x, Real.exp (-(t ^ 2)) := by
  rw [MeasureTheory.setIntegral_pos_iff_support_of_nonneg_ae
    (MeasureTheory.ae_of_all _ (fun t => (Real.exp_pos _).le))
    (exp_neg_sq_integrableOn x)]
  have hsupp : (Function.support fun t : ℝ => Real.exp (-(t ^ 2))) = Set.univ := by
    ext t
    simp [Function.support, (Real.exp_pos (-(t ^ 2))).ne']
  rw [hsupp, Set.univ_inter]
  simp [Real.volume_Ioi]

/-- The mathematical complementary error function is everywhere positive. -/
theorem erfc_pos (x : ℝ) : 0 < erfc x := by
  unfold erfc
  have h2 : 0 < 2 / Real.sqrt Real.pi :=
    div_pos two_pos (Real.sqrt_pos.mpr Real.pi_pos)
  exact mul_pos h2 (exp_neg_sq_integral_pos x)

theorem M_2_SQRTPI_pos : 0 < M_2_SQRTPI :=
  div_pos two_pos (Real.sqrt_pos.mpr Real.pi_pos)

theorem P2P_foldl_eq (alpha cutoff : ℝ) (Xp : vec3) (src : List Body) (Bi : Body) :
    List.foldl (fun B Bj =>
      { B with TRG := B.TRG + p2pInc alpha cutoff B.X Bj.X Bj.SRC Xp }) Bi src =
    { Bi with TRG := Bi.TRG +
      (src.map (fun Bj => p2pInc alpha cutoff Bi.X Bj.X Bj.SRC Xp)).sum } := by
  induction src generalizing Bi with
  | nil => simp
  | cons Bj rest ih =>
    simp only [List.foldl_cons, List.map_cons, List.sum_cons]
    rw [ih]
    simp [add_assoc]

/-- C1.  For every pair of particles (target position `Xi`, source
position `Xj` with charge `qj`) and periodic offset `Xp`, with
`dX = Xi - Xj - Xp` and `R² = |dX|²`: the P2P kernel's increment is zero
when `R² = 0` or `R² ≥ cutoff²`; when `0 < R² < cutoff²` the potential
gains `qj·erfc(R·alpha)/(R·alpha)·alpha` and force axis `d` gains
`-dX[d]·dtmp` with
`dtmp = qj·(2/√π·exp(-(R·alpha)²)/(R·alpha)² + erfc(R·alpha)/(R·alpha)³)·alpha³`,
and for a charged source the potential contribution is nonzero; `P2P`
adds exactly these increments to each target particle's accumulator. -/
theorem claim_C1 (alpha cutoff : ℝ) (Xi Xj : vec3) (qj : ℝ) (Xp : vec3)
    (ha : 0 < alpha) :
    (¬ (0 < norm3 (fun d => Xi d - Xj d - Xp d) ∧
        norm3 (fun d => Xi d - Xj d - Xp d) < cutoff * cutoff) →
      p2pInc alpha cutoff Xi Xj qj Xp = 0) ∧
    (0 < norm3 (fun d => Xi d - Xj d - Xp d) ∧
        norm3 (fun d => Xi d - Xj d - Xp d) < cutoff * cutoff →
      (p2pInc alpha cutoff Xi Xj qj Xp 0 =
        qj * erfc (Real.sqrt (norm3 (fun d => Xi d - Xj d - Xp d)) * alpha) /
          (Real.sqrt (norm3 (fun d => Xi d - Xj d - Xp d)) * alpha) * alpha) ∧
      (∀ d : Fin 3, p2pInc alpha cutoff Xi Xj qj Xp d.succ =
        -((Xi d - Xj d - Xp d) *
          (qj * (M_2_SQRTPI *
              Real.exp (-((Real.sqrt (norm3 (fun e => Xi e - Xj e - Xp e)) * alpha) ^ 2)) /
                (Real.sqrt (norm3 (fun e => Xi e - Xj e - Xp e)) * alpha) ^ 2 +
              erfc (Real.sqrt (norm3 (fun e => Xi e - Xj e - Xp e)) * alpha) /
                (Real.sqrt (norm3 (fun e => Xi e - Xj e - Xp e)) * alpha) ^ 3) *
            alpha ^ 3))) ∧
      (qj ≠ 0 → p2pInc alpha cutoff Xi Xj qj Xp 0 ≠ 0)) ∧
    (∀ tgt src : List Body, P2P alpha cutoff tgt src Xp = tgt.map (fun Bi =>
      { Bi with TRG := Bi.TRG +
        (src.map (fun Bj => p2pInc alpha cutoff Bi.X Bj.X Bj.SRC Xp)).sum })) := by
  refine ⟨fun hcond => ?_, fun hcond => ?_, fun tgt src => ?_⟩
  · simp only [p2pInc]
    rw [if_neg hcond]
  · have hR2 : 0 < norm3 (fun d => Xi d - Xj d - Xp d) := hcond.1
    have hRs : Real.sqrt (norm3 (fun d => Xi d - Xj d - Xp d) * alpha * alpha) =
        Real.sqrt (norm3 (fun d => Xi d - Xj d - Xp d)) * alpha := by
      rw [mul_assoc, Real.sqrt_mul hR2.le, Real.sqrt_mul_self ha.le]
    have hsq : (Real.sqrt (norm3 (fun d => Xi d - Xj d - Xp d)) * alpha) ^ 2 =
        norm3 (fun d => Xi d - Xj d - Xp d) * alpha * alpha := by
      rw [mul_pow, Real.sq_sqrt hR2.le]
      ring
    have hRspos : 0 < Real.sqrt (norm3 (fun d => Xi d - Xj d - Xp d)) * alpha :=
      mul_pos (Real.sqrt_pos.mpr hR2) ha
    refine ⟨?_, fun d => ?_, fun hq => ?_⟩
    · simp only [p2pInc]
      rw [if_pos hcond]
      simp only [Fin.cases_zero, hRs, mul_one_div]
    · simp only [p2pInc]
      rw [if_pos hcond]
      simp only [Fin.cases_succ, hRs, hsq]
      obtain ⟨s, hs⟩ : ∃ s, s = Real.sqrt (norm3 fun d => Xi d - Xj d - Xp d) := ⟨_, rfl⟩
      rw [← hs]
      have hs2 : s ^ 2 = norm3 (fun d => Xi d - Xj d - Xp d) := by
        rw [hs]
        exact Real.sq_sqrt hR2.le
      rw [← hs2]
      ring
    · simp only [p2pInc]
      rw [if_pos hcond]
      simp only [Fin.cases_zero, hRs]
      have h1 : erfc (Real.sqrt (norm3 (fun d => Xi d - Xj d - Xp d)) * alpha) ≠ 0 :=
        (erfc_pos _).ne'
      have h2 : (1 : ℝ) / (Real.sqrt (norm3 (fun d => Xi d - Xj d - Xp d)) * alpha) ≠ 0 :=
        one_div_ne_zero hRspos.ne'
      exact mul_ne_zero (mul_ne_zero (mul_ne_zero hq h1) h2) ha.ne'
  · simp only [P2P]
    refine List.map_congr_left (fun Bi _ => ?_)
    exact P2P_foldl_eq alpha cutoff Xp src Bi

/-- Witness for C1 at a concrete input: target at `(1,0,0)`, source of
charge 2 at the origin, no periodic offset, `alpha = 1`, `cutoff = 2`
(so `R² = 1` is inside the cutoff) — the potential increment is nonzero. -/
theorem claim_C1_witness :
    p2pInc 1 2 ![1, 0, 0] ![0, 0, 0] 2 ![0, 0, 0] 0 ≠ 0 := by
  have h := claim_C1 1 2 ![1, 0, 0] ![0, 0, 0] 2 ![0, 0, 0] (by norm_num)
  refine (h.2.1 ?_).2.2 (by norm_num)
  refine ⟨by norm_num [norm3], by norm_num [norm3]⟩

/-- C7 counterexample.  Two particles with charges 1 and 2 at distance 1
(`alpha = 1`, `cutoff = 2`, no periodic offset): the x-force increment
the kernel gives the charge-1 particle is NOT the negation of the one it
gives the charge-2 particle, because each increment carries only the
source particle's charge. -/
theorem claim_C7_counterexample :
    ¬ (p2pInc 1 2 ![1, 0, 0] ![0, 0, 0] 2 0 1 =
        -(p2pInc 1 2 ![0, 0, 0] ![1, 0, 0] 1 0 1)) := by
  have hg : 0 < M_2_SQRTPI * Real.exp (-1) + erfc 1 :=
    add_pos (mul_pos M_2_SQRTPI_pos (Real.exp_pos _)) (erfc_pos 1)
  intro h
  have h1 : norm3 (fun d => (![1, 0, 0] : vec3) d - (![0, 0, 0] : vec3) d - (0 : vec3) d) = 1 := by
    norm_num [norm3]
  have h2 : norm3 (fun d => (![0, 0, 0] : vec3) d - (![1, 0, 0] : vec3) d - (0 : vec3) d) = 1 := by
    norm_num [norm3]
  have hone : (1 : Fin 4) = Fin.succ 0 := rfl
  simp only [p2pInc, h1, h2] at h
  rw [if_pos (by norm_num), if_pos (by norm_num)] at h
  rw [hone] at h
  simp only [Fin.cases_succ] at h
  norm_num [Real.sqrt_one] at h
  nlinarith [hg]

/-- C7 (amended).  With zero periodic offset, the target-charge-weighted
force increments obey Newton's third law (`qi` times the increment to
`i` is the negation of `qj` times the increment to `j`), the
target-charge-weighted potential contributions agree, and the raw
potential contribution is the source charge times a function of the
squared separation magnitude alone. -/
theorem claim_C7_amended (alpha cutoff : ℝ) (Xi Xj : vec3) (qi qj : ℝ) :
    (∀ d : Fin 3,
      qi * p2pInc alpha cutoff Xi Xj qj 0 d.succ =
        -(qj * p2pInc alpha cutoff Xj Xi qi 0 d.succ)) ∧
    qi * p2pInc alpha cutoff Xi Xj qj 0 0 = qj * p2pInc alpha cutoff Xj Xi qi 0 0 ∧
    p2pInc alpha cutoff Xi Xj qj 0 0 =
      qj * realPotCoef alpha cutoff (norm3 (fun d => Xi d - Xj d)) := by
  have hnorm : (norm3 fun d => Xj d - Xi d) = norm3 fun d => Xi d - Xj d := by
    simp only [norm3]
    ring
  by_cases hc : 0 < norm3 (fun d => Xi d - Xj d) ∧
      norm3 (fun d => Xi d - Xj d) < cutoff * cutoff
  · refine ⟨fun d => ?_, ?_, ?_⟩
    · simp only [p2pInc, Pi.zero_apply, sub_zero, hnorm]
      rw [if_pos hc, if_pos hc]
      simp only [Fin.cases_succ]
      ring
    · simp only [p2pInc, Pi.zero_apply, sub_zero, hnorm]
      rw [if_pos hc, if_pos hc]
      simp only [Fin.cases_zero]
      ring
    · simp only [p2pInc, realPotCoef, Pi.zero_apply, sub_zero]
      rw [if_pos hc, if_pos hc]
      simp only [Fin.cases_zero]
      ring
  · refine ⟨fun d => ?_, ?_, ?_⟩
    · simp only [p2pInc, Pi.zero_apply, sub_zero, hnorm]
      rw [if_neg hc, if_neg hc]
      simp
    · simp only [p2pInc, Pi.zero_apply, sub_zero, hnorm]
      rw [if_neg hc, if_neg hc]
      simp
    · simp only [p2pInc, realPotCoef, Pi.zero_apply, sub_zero]
      rw [if_neg hc, if_neg hc]
      simp

theorem getDipole_foldl (X0 : vec3) (bodies : List Body) (a : vec3) :
    List.foldl (fun dipole B => dipole + fun d => (B.X d - X0 d) * B.SRC) a bodies =
    a + (bodies.map (fun B => fun d : Fin 3 => (B.X d - X0 d) * B.SRC)).sum := by
  induction bodies generalizing a with
  | nil => simp
  | cons x xs ih => simp [ih, add_assoc]

/-- C9.  `selfTerm` subtracts exactly `2/√π · q · alpha` from each
particle's potential and leaves the force components, position, source
strength and bookkeeping unchanged. -/
theorem claim_C9 (alpha : ℝ) (bodies : List Body) :
    selfTerm alpha bodies = bodies.map (fun B =>
      { B with
        TRG := fun k => @Fin.cases 3 (fun _ => ℝ)
          (B.TRG 0 - 2 / Real.sqrt Real.pi * B.SRC * alpha)
          (fun d => B.TRG d.succ) k }) ∧
    (selfTerm alpha bodies).map Body.X = bodies.map Body.X ∧
    (selfTerm alpha bodies).map Body.SRC = bodies.map Body.SRC ∧
    (selfTerm alpha bodies).map Body.IBODY = bodies.map Body.IBODY ∧
    (selfTerm alpha bodies).map Body.ICELL = bodies.map Body.ICELL ∧
    (selfTerm alpha bodies).map Body.WEIGHT = bodies.map Body.WEIGHT ∧
    (selfTerm alpha bodies).map (fun B => fun d : Fin 3 => B.TRG d.succ) =
      bodies.map (fun B => fun d : Fin 3 => B.TRG d.succ) := by
  refine ⟨rfl, ?_, ?_, ?_, ?_, ?_, ?_⟩ <;>
    simp [selfTerm, List.map_map, Function.comp]

/-- C8.  `getDipole` returns the sum of `(position - X0) · source` over
all particles, and `dipoleCorrection` subtracts
`4π/(3V) · |dipole|² / (count · q_i)` from each potential and
`4π/(3V) · dipole[d]` from each force axis, `V` the box volume. -/
theorem claim_C8 (bodies : List Body) (X0 dipole : vec3) (numBodies : ℤ)
    (cyc : vec3) :
    getDipole bodies X0 =
      (bodies.map (fun B => fun d : Fin 3 => (B.X d - X0 d) * B.SRC)).sum ∧
    dipoleCorrection bodies dipole numBodies cyc = bodies.map (fun B =>
      { B with
        TRG := fun k => @Fin.cases 3 (fun _ => ℝ)
          (B.TRG 0 - 4 * Real.pi / (3 * (cyc 0 * cyc 1 * cyc 2)) * norm3 dipole /
            ((numBodies : ℝ) * B.SRC))
          (fun d => B.TRG d.succ -
            4 * Real.pi / (3 * (cyc 0 * cyc 1 * cyc 2)) * dipole d) k }) := by
  constructor
  · simp only [getDipole]
    rw [getDipole_foldl X0 bodies 0, zero_add]
  · simp only [dipoleCorrection]
    refine List.map_congr_left fun B _ => ?_
    congr 1
    funext k
    refine Fin.cases ?_ (fun d => ?_) k
    · simp only [Fin.cases_zero]
      rw [div_div]
      ring_nf
    · simp only [Fin.cases_succ]
      ring_nf

/-- C10.  Every denominator `dipoleCorrection` divides by is nonzero
when the body count, the cycle components and every body's source
strength are nonzero; and an input containing a body of source strength
zero makes the potential update divide by zero. -/
theorem claim_C10 :
    (∀ (bodies : List Body) (numBodies : ℤ) (cyc : vec3),
      numBodies ≠ 0 → (∀ d, cyc d ≠ 0) → (∀ B ∈ bodies, B.SRC ≠ 0) →
      ∀ x ∈ dipoleCorrectionDenominators bodies numBodies cyc, x ≠ 0) ∧
    (0 : ℝ) ∈ dipoleCorrectionDenominators
      [⟨0, 0, 0, 0, 0, 1⟩] 1 (fun _ => 1) := by
  constructor
  · intro bodies numBodies cyc hn hc hs x hx
    simp only [dipoleCorrectionDenominators, List.mem_cons, List.mem_flatMap,
      List.not_mem_nil, or_false] at hx
    rcases hx with hx | ⟨B, hB, hx | hx⟩
    · subst hx
      exact mul_ne_zero (mul_ne_zero (mul_ne_zero three_ne_zero (hc 0)) (hc 1)) (hc 2)
    · subst hx
      exact Int.cast_ne_zero.mpr hn
    · subst hx
      exact hs B hB
  · simp [dipoleCorrectionDenominators]

/-- Witness for C10 at a concrete input: one body of unit charge, body
count 1, unit box — the `coef` denominator is nonzero. -/
theorem claim_C10_witness : ((3 : ℝ) * 1 * 1 * 1) ≠ 0 := by
  have h := claim_C10.1 [⟨0, 1, 0, 0, 0, 1⟩] 1 (fun _ => 1)
    (by norm_num) (fun d => one_ne_zero) ?_ (3 * 1 * 1 * 1) ?_
  · exact h
  · intro B hB
    simp only [List.mem_singleton] at hB
    subst hB
    exact one_ne_zero
  · simp [dipoleCorrectionDenominators]

theorem mem_intRange {lo hi x : ℤ} : x ∈ intRange lo hi ↔ lo ≤ x ∧ x ≤ hi := by
  simp only [intRange, List.mem_map, List.mem_range]
  constructor
  · rintro ⟨i, hi', rfl⟩
    omega
  · rintro ⟨h1, h2⟩
    exact ⟨(x - lo).toNat, by omega, by omega⟩

theorem int_abs_le_of_sq_le {x k : ℤ} (hk : 0 ≤ k) (h : x * x ≤ k * k) :
    -k ≤ x ∧ x ≤ k := by
  constructor <;> nlinarith

theorem mem_initWaves_iff (ksize : ℕ) (W : Wave) :
    W ∈ initWaves ksize ↔ ∃ l m n : ℤ,
      W = ⟨![l, m, n], 0, 0⟩ ∧
      l * l + m * m + n * n ≤ (ksize : ℤ) * (ksize : ℤ) ∧
      0 ≤ l ∧ (l = 0 → 0 ≤ m) ∧ (l = 0 → m = 0 → 0 < n) := by
  have hk : (0 : ℤ) ≤ (ksize : ℤ) := Int.natCast_nonneg ksize
  simp only [initWaves, List.mem_flatMap, List.mem_filterMap, mem_intRange,
    Option.ite_none_right_eq_some, Option.some_inj]
  constructor
  · rintro ⟨l, ⟨hl0, hlk⟩, m, ⟨hm0, hmk⟩, n, ⟨hn0, hnk⟩, hcond, hW⟩
    refine ⟨l, m, n, hW.symm, hcond, hl0, fun hl => ?_, fun hl hm => ?_⟩
    · rw [if_pos hl] at hm0
      exact hm0
    · rw [if_pos ⟨hl, hm⟩] at hn0
      omega
  · rintro ⟨l, m, n, hW, hcond, hl0, hm0, hn0⟩
    have hm2 : m * m ≤ (ksize : ℤ) * (ksize : ℤ) := by nlinarith [mul_self_nonneg l, mul_self_nonneg n]
    have hn2 : n * n ≤ (ksize : ℤ) * (ksize : ℤ) := by nlinarith [mul_self_nonneg l, mul_self_nonneg m]
    have hl2 : l * l ≤ (ksize : ℤ) * (ksize : ℤ) := by nlinarith [mul_self_nonneg m, mul_self_nonneg n]
    have hmb := int_abs_le_of_sq_le hk hm2
    have hnb := int_abs_le_of_sq_le hk hn2
    have hlb := int_abs_le_of_sq_le hk hl2
    refine ⟨l, ⟨hl0, hlb.2⟩, m, ⟨?_, hmb.2⟩, n, ⟨?_, hnb.2⟩, hcond, hW.symm⟩
    · by_cases hl : l = 0
      · rw [if_pos hl]
        exact hm0 hl
      · rw [if_neg hl]
        exact hmb.1
    · by_cases hlm : l = 0 ∧ m = 0
      · rw [if_pos hlm]
        omega
      · rw [if_neg hlm]
        exact hnb.1

theorem initWaves_K_ne_zero (ksize : ℕ) (W : Wave) (h : W ∈ initWaves ksize) :
    ∃ d : Fin 3, W.K d ≠ 0 := by
  obtain ⟨l, m, n, rfl, hcond, hl0, hm0, hn0⟩ := (mem_initWaves_iff ksize W).mp h
  by_cases hl : l = 0
  · by_cases hm : m = 0
    · exact ⟨2, by simp [hl, hm, (hn0 hl hm).ne']⟩
    · exact ⟨1, by simp [hm]⟩
  · exact ⟨0, by simp [hl]⟩

/-- C2.  `initWaves` returns exactly the nonzero integer vectors with
`l²+m²+n² ≤ ksize²` in the half lattice `l ≥ 0`, `m ≥ 0` when `l = 0`,
`n > 0` when `l = m = 0` (upper bounds `l,m ≤ ksize` follow); every wave
has zero amplitudes and a nonzero vector; `ksize = 0` yields the empty
set; for `ksize = 1` the set has no duplicates and exactly half the size
of the full symmetric shell (3 of 6). -/
theorem claim_C2 (ksize : ℕ) (l m n : ℤ) :
    ((∃ W ∈ initWaves ksize, W.K = ![l, m, n]) ↔
      (l * l + m * m + n * n ≤ (ksize : ℤ) * (ksize : ℤ) ∧
       0 ≤ l ∧ l ≤ (ksize : ℤ) ∧ (l = 0 → 0 ≤ m ∧ m ≤ (ksize : ℤ)) ∧
       (l = 0 → m = 0 → 0 < n))) ∧
    (∀ W ∈ initWaves ksize, W.K ≠ ![0, 0, 0] ∧ W.REAL = 0 ∧ W.IMAG = 0) ∧
    initWaves 0 = [] ∧
    ((initWaves 1).map Wave.K).Nodup ∧
    (initWaves 1).length = 3 ∧
    (fullShell 1).length = 6 := by
  have hk : (0 : ℤ) ≤ (ksize : ℤ) := Int.natCast_nonneg ksize
  refine ⟨?_, ?_, ?_, ?_, ?_, ?_⟩
  · constructor
    · rintro ⟨W, hW, hK⟩
      obtain ⟨l', m', n', rfl, hcond, hl0, hm0, hn0⟩ := (mem_initWaves_iff ksize W).mp hW
      have e0 := congrFun hK 0
      have e1 := congrFun hK 1
      have e2 := congrFun hK 2
      simp only [Matrix.cons_val_zero, Matrix.cons_val_one, Matrix.head_cons,
        Matrix.cons_val_two, Matrix.tail_cons] at e0 e1 e2
      rw [← e0, ← e1, ← e2]
      have hl2 : l' * l' ≤ (ksize : ℤ) * (ksize : ℤ) := by
        nlinarith [mul_self_nonneg m', mul_self_nonneg n']
      have hm2 : m' * m' ≤ (ksize : ℤ) * (ksize : ℤ) := by
        nlinarith [mul_self_nonneg l', mul_self_nonneg n']
      exact ⟨hcond, hl0, (int_abs_le_of_sq_le hk hl2).2,
        fun hl => ⟨hm0 hl, (int_abs_le_of_sq_le hk hm2).2⟩, hn0⟩
    · rintro ⟨hcond, hl0, hlk, hm0, hn0⟩
      exact ⟨⟨![l, m, n], 0, 0⟩, (mem_initWaves_iff ksize _).mpr
        ⟨l, m, n, rfl, hcond, hl0, fun hl => (hm0 hl).1, hn0⟩, rfl⟩
  · intro W hW
    obtain ⟨l', m', n', rfl, hcond, hl0, hm0, hn0⟩ := (mem_initWaves_iff ksize W).mp hW
    refine ⟨fun hK => ?_, rfl, rfl⟩
    have e0 := congrFun hK 0
    have e1 := congrFun hK 1
    have e2 := congrFun hK 2
    simp only [Matrix.cons_val_zero, Matrix.cons_val_one, Matrix.head_cons,
      Matrix.cons_val_two, Matrix.tail_cons] at e0 e1 e2
    have := hn0 e0 e1
    omega
  · rfl
  · decide
  · rfl
  · rfl

theorem norm3_pos_of_ne_zero (v : vec3) (d : Fin 3) (hd : v d ≠ 0) : 0 < norm3 v := by
  have hcase : d = 0 ∨ d = 1 ∨ d = 2 := by fin_cases d <;> simp
  have h0 := mul_self_nonneg (v 0)
  have h1 := mul_self_nonneg (v 1)
  have h2 := mul_self_nonneg (v 2)
  rcases hcase with rfl | rfl | rfl
  · have := mul_self_pos.mpr hd
    simp only [norm3]
    nlinarith
  · have := mul_self_pos.mpr hd
    simp only [norm3]
    nlinarith
  · have := mul_self_pos.mpr hd
    simp only [norm3]
    nlinarith

/-- C3.  The reciprocal filter multiplies both amplitude components in
place by `coef · exp(-K²/(4·alpha²)) / K²` with
`coef = 2/(sigma·cycle_x·cycle_y·cycle_z)` and `K` the componentwise
scaled wave vector; and `K² ≠ 0` for every wave of the generated set
when the cycle lengths are nonzero. -/
theorem claim_C3 (alpha sigma : ℝ) (cyc : vec3) (waves : List Wave) (ksize : ℕ) :
    (waveFilter alpha sigma cyc waves = waves.map (fun W =>
      { W with
        REAL := W.REAL * (2 / (sigma * cyc 0 * cyc 1 * cyc 2) *
          Real.exp (-(norm3 (fun d => (W.K d : ℝ) * (2 * Real.pi / cyc d)) /
            (4 * alpha ^ 2))) /
          norm3 (fun d => (W.K d : ℝ) * (2 * Real.pi / cyc d))),
        IMAG := W.IMAG * (2 / (sigma * cyc 0 * cyc 1 * cyc 2) *
          Real.exp (-(norm3 (fun d => (W.K d : ℝ) * (2 * Real.pi / cyc d)) /
            (4 * alpha ^ 2))) /
          norm3 (fun d => (W.K d : ℝ) * (2 * Real.pi / cyc d))) })) ∧
    (∀ W ∈ initWaves ksize, (∀ d, cyc d ≠ 0) →
      norm3 (fun d => (W.K d : ℝ) * (2 * Real.pi / cyc d)) ≠ 0) := by
  constructor
  · simp only [waveFilter, scaleVec]
    refine List.map_congr_left fun W _ => ?_
    have harg : -(norm3 fun d => (W.K d : ℝ) * (2 * Real.pi / cyc d)) *
        (1 / (4 * alpha * alpha)) =
        -(norm3 (fun d => (W.K d : ℝ) * (2 * Real.pi / cyc d)) / (4 * alpha ^ 2)) := by
      ring
    rw [harg]
    congr 1
    · ring
    · ring
  · intro W hW hc
    obtain ⟨d, hd⟩ := initWaves_K_ne_zero ksize W hW
    have hscale : (2 * Real.pi / cyc d) ≠ 0 :=
      div_ne_zero (mul_ne_zero two_ne_zero Real.pi_ne_zero) (hc d)
    have hKd : ((W.K d : ℝ)) ≠ 0 := Int.cast_ne_zero.mpr hd
    exact (norm3_pos_of_ne_zero (fun e => (W.K e : ℝ) * (2 * Real.pi / cyc e)) d
      (mul_ne_zero hKd hscale)).ne'

/-- Witness for C3: the wave `(0,0,1)` of the `ksize = 1` set in a unit
box has nonzero `K²`. -/
theorem claim_C3_witness :
    norm3 (fun d => ((Wave.mk ![0, 0, 1] 0 0).K d : ℝ) *
      (2 * Real.pi / (fun _ : Fin 3 => (1 : ℝ)) d)) ≠ 0 := by
  refine (claim_C3 1 1 (fun _ => 1) [] 1).2 ⟨![0, 0, 1], 0, 0⟩ ?_ (fun d => one_ne_zero)
  refine (mem_initWaves_iff 1 _).mpr ⟨0, 0, 1, rfl, by norm_num, le_refl 0,
    fun _ => le_refl 0, fun _ _ => one_pos⟩

theorem dft_foldl (scale : vec3) (J : List vec4) (K : Fin 3 → ℤ) (r i : ℝ) :
    J.foldl (fun Wa b =>
      { Wa with
        REAL := Wa.REAL + b 3 * Real.cos (phase scale Wa.K b),
        IMAG := Wa.IMAG + b 3 * Real.sin (phase scale Wa.K b) }) (Wave.mk K r i) =
    Wave.mk K (r + (J.map (fun b => b 3 * Real.cos (phase scale K b))).sum)
        (i + (J.map (fun b => b 3 * Real.sin (phase scale K b))).sum) := by
  induction J generalizing r i with
  | nil => simp
  | cons b J ih =>
    simp only [List.foldl_cons, List.map_cons, List.sum_cons]
    rw [ih]
    simp [add_assoc]

/-- C4.  After the forward transform each wave's amplitude is
`(Σ_b q_b·cos(θ_b), Σ_b q_b·sin(θ_b))` over all particles, with phase
`θ_b = Σ_d K[d]·x_b[d]·(2π/cycle[d])`. -/
theorem claim_C4 (cyc : vec3) (waves : List Wave) (J : List vec4) :
    dft cyc waves J = waves.map (fun W =>
      { W with
        REAL := (J.map (fun b => b 3 * Real.cos (phase (scaleVec cyc) W.K b))).sum,
        IMAG := (J.map (fun b => b 3 * Real.sin (phase (scaleVec cyc) W.K b))).sum }) ∧
    (∀ (K : Fin 3 → ℤ) (b : vec4), phase (scaleVec cyc) K b =
      ∑ d : Fin 3, (K d : ℝ) * b d.castSucc * (2 * Real.pi / cyc d)) := by
  constructor
  · simp only [dft]
    refine List.map_congr_left fun W _ => ?_
    cases W with
    | mk K r i =>
      rw [show ({ Wave.mk K r i with REAL := (0 : ℝ), IMAG := (0 : ℝ) }) =
        Wave.mk K 0 0 from rfl, dft_foldl]
      simp
  · exact fun K b => rfl

theorem idft_foldl (scale : vec3) (jb : vec4) (waves : List Wave) (t : vec4) :
    waves.foldl (fun t W =>
      fun k => @Fin.cases 3 (fun _ => ℝ)
        (t 0 + (W.REAL * Real.cos (phase scale W.K jb) +
          W.IMAG * Real.sin (phase scale W.K jb)))
        (fun d => t d.succ - (W.REAL * Real.sin (phase scale W.K jb) -
          W.IMAG * Real.cos (phase scale W.K jb)) * (W.K d : ℝ)) k) t =
    fun k => @Fin.cases 3 (fun _ => ℝ)
      (t 0 + (waves.map (fun W => W.REAL * Real.cos (phase scale W.K jb) +
        W.IMAG * Real.sin (phase scale W.K jb))).sum)
      (fun d => t d.succ - (waves.map (fun W =>
        (W.REAL * Real.sin (phase scale W.K jb) -
          W.IMAG * Real.cos (phase scale W.K jb)) * (W.K d : ℝ))).sum) k := by
  induction waves generalizing t with
  | nil =>
    funext k
    refine Fin.cases ?_ (fun d => ?_) k <;> simp
  | cons W ws ih =>
    simp only [List.foldl_cons, List.map_cons, List.sum_cons]
    rw [ih]
    funext k
    refine Fin.cases ?_ (fun d => ?_) k <;>
      simp [add_assoc, sub_sub]

/-- C5.  `idft` adds onto each particle's existing accumulator the
potential `Σ_W (real·cos θ + imag·sin θ)` and, per axis `d`, the force
`-(Σ_W dtmp_W·K_W[d])·(2π/cycle[d])` with
`dtmp_W = real·sin θ - imag·cos θ`, the axis factor applied once after
the wave loop. -/
theorem claim_C5 (cyc : vec3) (waves : List Wave) (I J : List vec4) :
    idft cyc waves I J = List.zipWith (fun ib jb => fun k =>
      @Fin.cases 3 (fun _ => ℝ)
        (ib 0 + (waves.map (fun W =>
          W.REAL * Real.cos (phase (scaleVec cyc) W.K jb) +
          W.IMAG * Real.sin (phase (scaleVec cyc) W.K jb))).sum)
        (fun d => ib d.succ +
          (-((waves.map (fun W =>
            (W.REAL * Real.sin (phase (scaleVec cyc) W.K jb) -
              W.IMAG * Real.cos (phase (scaleVec cyc) W.K jb)) *
            (W.K d : ℝ))).sum)) * (2 * Real.pi / cyc d)) k) I J := by
  simp only [idft]
  congr 1
  funext ib jb
  rw [idft_foldl]
  funext k
  refine Fin.cases ?_ (fun d => ?_) k
  · simp [scaleVec]
  · simp [scaleVec, zero_sub, neg_mul]

theorem realPartCalls_foldl (cutoff : ℝ) (cyc : vec3) (cells : List Cell)
    (root : Cell) (acc : List (Cell × Cell × vec3)) :
    cells.foldl (fun acc Ci =>
      if Ci.CHILD = [] then
        acc ++ (neighborCalls cutoff cyc Ci root).map (fun p => (Ci, p))
      else acc) acc =
    acc ++ cells.flatMap (fun Ci =>
      if Ci.CHILD = [] then
        (neighborCalls cutoff cyc Ci root).map (fun p => (Ci, p))
      else []) := by
  induction cells generalizing acc with
  | nil => simp
  | cons c cs ih =>
    simp only [List.foldl_cons, List.flatMap_cons]
    by_cases hc : c.CHILD = []
    · rw [if_pos hc, if_pos hc, ih, List.append_assoc]
    · rw [if_neg hc, if_neg hc, ih, List.nil_append]

/-- C6.  A source cell whose surface gap to the target (wrapped center
distance minus both radii) is not below `√3·cutoff` is pruned with its
entire subtree (the call trace is empty); below the threshold a leaf
source yields exactly one P2P call with the offset derived from the
wrap, and a non-leaf recurses into each child with the same target;
`realPart` starts one traversal per leaf target cell and none for
internal ones. -/
theorem claim_C6 (cutoff : ℝ) (cyc : vec3) (Ci : Cell) (X : vec3) (R : ℝ)
    (bodies : List Body) (children : List Cell) (cells : List Cell) (root : Cell) :
    (¬ (Real.sqrt (norm3 (wrap (fun d => Ci.X d - X d) cyc)) - Ci.R - R <
        Real.sqrt 3 * cutoff) →
      neighborCalls cutoff cyc Ci (Cell.mk X R bodies children) = []) ∧
    (Real.sqrt (norm3 (wrap (fun d => Ci.X d - X d) cyc)) - Ci.R - R <
        Real.sqrt 3 * cutoff →
      (children = [] →
        neighborCalls cutoff cyc Ci (Cell.mk X R bodies children) =
          [(Cell.mk X R bodies children,
            fun d => Ci.X d - X d - wrap (fun e => Ci.X e - X e) cyc d)]) ∧
      (children ≠ [] →
        neighborCalls cutoff cyc Ci (Cell.mk X R bodies children) =
          children.flatMap (fun c => neighborCalls cutoff cyc Ci c))) ∧
    realPartCalls cutoff cyc cells root =
      cells.flatMap (fun Ci =>
        if Ci.CHILD = [] then
          (neighborCalls cutoff cyc Ci root).map (fun p => (Ci, p))
        else []) := by
  refine ⟨fun hfar => ?_, fun hnear => ⟨fun hleaf => ?_, fun hnode => ?_⟩, ?_⟩
  · rw [neighborCalls]
    rw [if_neg hfar]
  · rw [neighborCalls]
    rw [if_pos hnear, if_pos hleaf]
    subst hleaf
    simp
  · rw [neighborCalls]
    rw [if_pos hnear, if_neg hnode]
    rw [List.nil_append]
    rw [List.attach_map_val children (fun c => neighborCalls cutoff cyc Ci c)]
    rw [List.flatMap_def]
  · unfold realPartCalls
    rw [realPartCalls_foldl, List.nil_append]

/-- Witness for C6: with `cutoff = 0`, coincident point cells in a unit
box, the gap `0` is not below `√3·0`, so the traversal is pruned and
makes no P2P call. -/
theorem claim_C6_witness :
    neighborCalls 0 (fun _ => 1) (Cell.mk (fun _ => 0) 0 [] [])
      (Cell.mk (fun _ => 0) 0 [] []) = [] := by
  refine (claim_C6 0 (fun _ => 1) (Cell.mk (fun _ => 0) 0 [] [])
    (fun _ => 0) 0 [] [] [] (Cell.mk (fun _ => 0) 0 [] [])).1 ?_
  have hw : wrap (fun d => (Cell.mk (fun _ => (0 : ℝ)) 0 [] []).X d -
      (fun _ : Fin 3 => (0 : ℝ)) d) (fun _ => 1) = fun _ => 0 := by
    funext d
    simp [wrap, Cell.X]
  rw [hw]
  simp [norm3, Cell.R]

/-- Witness for C2: the wave `(0,0,1)` of the `ksize = 1` set has a
nonzero vector and zero amplitudes. -/
theorem claim_C2_witness :
    (Wave.mk ![0, 0, 1] 0 0).K ≠ ![0, 0, 0] ∧
    (Wave.mk ![0, 0, 1] 0 0).REAL = 0 ∧ (Wave.mk ![0, 0, 1] 0 0).IMAG = 0 :=
  (claim_C2 1 0 0 1).2.1 ⟨![0, 0, 1], 0, 0⟩
    ((mem_initWaves_iff 1 _).mpr ⟨0, 0, 1, rfl, by norm_num, le_refl 0,
      fun _ => le_refl 0, fun _ _ => one_pos⟩)

end Ewald2
